import Mathlib

/-!
Shallow embedding of the tidal extrema detection engine of the
quick-tide-checker browser extension.

Heights and timestamps are modelled as rationals (JS numbers; IEEE-754
rounding is not modelled), missing telemetry (`null`) as `Option`, and the
hourly API payload as two parallel lists.  Timestamps are kept in
milliseconds, matching `Date.getTime()`; the ISO `time` string stored next
to `timeMs` in the source is derived from the same number and is not
modelled separately.  The `validateTideSequence` helper of the source is
diagnostic-only console output guarded by `DEBUG_MODE` and never mutates
the sequence, so it is omitted from the pipeline.
-/

namespace TideChecker

/-- Kind of a tidal event: local maximum (`'HIGH'`) or local minimum (`'LOW'`). -/
inductive TideKind where
  | HIGH
  | LOW
deriving DecidableEq, Repr

/-- `TIDAL_CONSTANTS.MIN_TIDE_SEPARATION_HOURS` from the source. -/
def MIN_TIDE_SEPARATION_HOURS : ℚ := 4.5

/-- `TIDAL_CONSTANTS.MIN_TIDE_SEPARATION_MS = 4.5 * 60 * 60 * 1000` from the source. -/
def MIN_TIDE_SEPARATION_MS : ℚ := 4.5 * 60 * 60 * 1000

/-- A candidate record as pushed by STEP 1 of `getPreciseTides`
(`{type, time, timeMs, height, prominence, index}`).  The display-rounded
`height.toFixed(2)` string is kept as the exact rational the code computes
before formatting. -/
structure TideCandidate where
  type : TideKind
  timeMs : ℚ
  height : ℚ
  prominence : ℚ
  index : ℕ
deriving DecidableEq, Repr

/-- One iteration of the STEP 1 scan of `getPreciseTides` at centre index `i`:
read the triple `y1, y2, y3` around `i`, skip `null` heights and
out-of-range indices (the JS loop runs for `1 ≤ i ≤ length - 2`), classify
the extremum, compute the prominence, and apply the quadratic
interpolation (`divisor = 2*(y1 - 2*y2 + y3)`,
`offset = divisor ≠ 0 ? (y1 - y3)/divisor : 0`,
`timeMs = baseTime + offset*60*60*1000`,
`height = y2 - 0.25*(y1 - y3)*offset`). -/
def candAt (seaLevels : List (Option ℚ)) (times : List ℚ) (i : ℕ) :
    Option TideCandidate :=
  if i = 0 then none else
  match seaLevels[i-1]?, seaLevels[i]?, seaLevels[i+1]?, times[i]? with
  | some (some y1), some (some y2), some (some y3), some ti =>
    if (y1 < y2 ∧ y3 < y2) ∨ (y2 < y1 ∧ y2 < y3) then
      let prominence := |y2 - (y1 + y3) / 2|
      let divisor := 2 * (y1 - 2 * y2 + y3)
      let offset := if divisor ≠ 0 then (y1 - y3) / divisor else 0
      some { type := if y1 < y2 ∧ y3 < y2 then TideKind.HIGH else TideKind.LOW
             timeMs := ti + offset * (60 * 60 * 1000)
             height := y2 - 0.25 * (y1 - y3) * offset
             prominence := prominence
             index := i }
    else none
  | _, _, _, _ => none

/-- STEP 1 of `getPreciseTides`: the candidate-collecting loop, in series
order.  `candAt` returns `none` outside `1 ≤ i ≤ length - 2`, so ranging
over all indices reproduces the JS loop bounds exactly. -/
def findCandidates (seaLevels : List (Option ℚ)) (times : List ℚ) :
    List TideCandidate :=
  (List.range seaLevels.length).filterMap (candAt seaLevels times)

/-- The body of the `filterByTimeSeparation` loop: `filtered` is the
accumulating array (seeded with the first candidate by the caller), and for
each `current` the code appends when `timeDiff >= MIN_TIDE_SEPARATION_MS`,
replaces the last kept element when `current.prominence > last.prominence`,
and otherwise drops `current`. -/
def filterLoop (filtered : List TideCandidate) :
    List TideCandidate → List TideCandidate
  | [] => filtered
  | current :: rest =>
    match filtered.getLast? with
    | none => filterLoop (filtered ++ [current]) rest
    | some last =>
      if MIN_TIDE_SEPARATION_MS ≤ current.timeMs - last.timeMs then
        filterLoop (filtered ++ [current]) rest
      else if last.prominence < current.prominence then
        filterLoop (filtered.dropLast ++ [current]) rest
      else
        filterLoop filtered rest

/-- `filterByTimeSeparation` from the source: empty input returns `[]`,
otherwise the output array is seeded with the first candidate and the loop
runs over the rest. -/
def filterByTimeSeparation (candidates : List TideCandidate) :
    List TideCandidate :=
  match candidates with
  | [] => []
  | c0 :: rest => filterLoop [c0] rest

/-- The body of the `enforceAlternation` loop: append when the kinds
differ, replace the last kept element when `current.prominence >
last.prominence`, otherwise drop `current`. -/
def altLoop (validated : List TideCandidate) :
    List TideCandidate → List TideCandidate
  | [] => validated
  | current :: rest =>
    match validated.getLast? with
    | none => altLoop (validated ++ [current]) rest
    | some last =>
      if current.type ≠ last.type then
        altLoop (validated ++ [current]) rest
      else if last.prominence < current.prominence then
        altLoop (validated.dropLast ++ [current]) rest
      else
        altLoop validated rest

/-- `enforceAlternation` from the source, including the `length < 2` early
return. -/
def enforceAlternation (tides : List TideCandidate) : List TideCandidate :=
  if tides.length < 2 then tides
  else
    match tides with
    | [] => []
    | t0 :: rest => altLoop [t0] rest

/-- The `hourlyData` argument of `getPreciseTides`: the two parallel arrays
of the marine API payload. -/
structure HourlyData where
  sea_level_height_msl : List (Option ℚ)
  time : List ℚ

/-- `getPreciseTides` from the source: candidate scan, separation filter,
alternation enforcement.  STEP 4 (`validateTideSequence`) only logs and is
omitted. -/
def getPreciseTides (hourlyData : HourlyData) : List TideCandidate :=
  let candidates := findCandidates hourlyData.sea_level_height_msl hourlyData.time
  let filteredTides := filterByTimeSeparation candidates
  let validatedTides := enforceAlternation filteredTides
  validatedTides

/-- JS coercion applied by the relational operators of `displayTideData`:
`null` compares as `0`. -/
def jsToNum (o : Option ℚ) : ℚ := o.getD 0

/-- The current-index scan of `displayTideData`: walk the `times` array,
record each index whose timestamp is `≤ now`, and break at the first future
timestamp.  `currentIndex` starts at `0`. -/
def findCurrentIndexLoop (now : ℚ) (currentIndex : ℕ) (i : ℕ) :
    List ℚ → ℕ
  | [] => currentIndex
  | t :: rest =>
    if t ≤ now then findCurrentIndexLoop now i (i + 1) rest else currentIndex

/-- `currentIndex` as computed by `displayTideData`. -/
def findCurrentIndex (times : List ℚ) (now : ℚ) : ℕ :=
  findCurrentIndexLoop now 0 0 times

/-- The rising/falling determination of `displayTideData`:
`nextHeight = seaLevels[currentIndex + 1] || currentHeight` (the JS `||`
falls back to `currentHeight` when the next entry is `undefined`, `null`
or `0`), then `isRising = nextHeight > currentHeight` with `null` coerced
to `0` by the comparison. -/
def trendRising (seaLevels : List (Option ℚ)) (currentIndex : ℕ) : Bool :=
  let currentHeight : Option ℚ := (seaLevels[currentIndex]?).join
  let nextRaw : Option ℚ := (seaLevels[currentIndex + 1]?).join
  let nextHeight := if nextRaw = none ∨ nextRaw = some 0 then currentHeight else nextRaw
  decide (jsToNum currentHeight < jsToNum nextHeight)

/-- `nextHigh` of `displayTideData`: first event with kind `HIGH` and time
strictly after `now`. -/
def nextHighTide (preciseTides : List TideCandidate) (now : ℚ) :
    Option TideCandidate :=
  preciseTides.find? (fun t => decide (t.type = TideKind.HIGH ∧ now < t.timeMs))

/-- `nextLow` of `displayTideData`: first event with kind `LOW` and time
strictly after `now`. -/
def nextLowTide (preciseTides : List TideCandidate) (now : ℚ) :
    Option TideCandidate :=
  preciseTides.find? (fun t => decide (t.type = TideKind.LOW ∧ now < t.timeMs))

/-- `pastTides` of `displayTideData`: events with time `≤ now`. -/
def pastTides (preciseTides : List TideCandidate) (now : ℚ) :
    List TideCandidate :=
  preciseTides.filter (fun t => decide (t.timeMs ≤ now))

/-- `lastTide` of `displayTideData`:
`pastTides.length > 0 ? pastTides[pastTides.length - 1] : null`. -/
def lastTideOf (preciseTides : List TideCandidate) (now : ℚ) :
    Option TideCandidate :=
  (pastTides preciseTides now).getLast?

/-- The event records pushed by the `getPreciseTides` variant in
`src/popup.js` (`{type, time, height}`, no prominence and no index). -/
structure PopupTideEvent where
  type : TideKind
  timeMs : ℚ
  height : ℚ
deriving DecidableEq, Repr

/-- One iteration of the scan of the `src/popup.js` `getPreciseTides`
variant: same detection and interpolation as the engine, but the pushed
record carries no prominence or index. -/
def popupCandAt (seaLevels : List (Option ℚ)) (times : List ℚ) (i : ℕ) :
    Option PopupTideEvent :=
  if i = 0 then none else
  match seaLevels[i-1]?, seaLevels[i]?, seaLevels[i+1]?, times[i]? with
  | some (some y1), some (some y2), some (some y3), some ti =>
    if (y1 < y2 ∧ y3 < y2) ∨ (y2 < y1 ∧ y2 < y3) then
      let divisor := 2 * (y1 - 2 * y2 + y3)
      let offset := if divisor ≠ 0 then (y1 - y3) / divisor else 0
      some { type := if y1 < y2 ∧ y3 < y2 then TideKind.HIGH else TideKind.LOW
             timeMs := ti + offset * (60 * 60 * 1000)
             height := y2 - 0.25 * (y1 - y3) * offset }
    else none
  | _, _, _, _ => none

/-- `getPreciseTides` from `src/popup.js`: the raw interpolated candidates
in series order, with no separation filter and no alternation pass. -/
def popupGetPreciseTides (hourlyData : HourlyData) : List PopupTideEvent :=
  (List.range hourlyData.sea_level_height_msl.length).filterMap
    (popupCandAt hourlyData.sea_level_height_msl hourlyData.time)

/-- Projection from an engine candidate to the popup record shape. -/
def TideCandidate.toPopupEvent (c : TideCandidate) : PopupTideEvent :=
  { type := c.type, timeMs := c.timeMs, height := c.height }

/-- The separation filter as the specification words it: seed the output
with the first candidate unconditionally; append each later candidate `c`
whose time is at least the minimum separation after the last kept
candidate; on conflict replace the last kept candidate exactly when `c` is
strictly more prominent, otherwise discard `c`. -/
def sepKeepSpec (lastKept : TideCandidate) :
    List TideCandidate → List TideCandidate
  | [] => [lastKept]
  | c :: rest =>
    if MIN_TIDE_SEPARATION_MS ≤ c.timeMs - lastKept.timeMs then
      lastKept :: sepKeepSpec c rest
    else if lastKept.prominence < c.prominence then
      sepKeepSpec c rest
    else
      sepKeepSpec lastKept rest

/-- Whole-list form of `sepKeepSpec`. -/
def sepFilterSpec : List TideCandidate → List TideCandidate
  | [] => []
  | c0 :: rest => sepKeepSpec c0 rest

/-- Emission-style rendering of the `enforceAlternation` loop, used as the
proof vehicle for its structural properties. -/
def altKeep (last : TideCandidate) : List TideCandidate → List TideCandidate
  | [] => [last]
  | c :: rest =>
    if c.type ≠ last.type then last :: altKeep c rest
    else if last.prominence < c.prominence then altKeep c rest
    else altKeep last rest

/-! ## Bridging lemmas: the accumulating loops versus their emission-style forms -/

theorem filterLoop_eq_sepKeepSpec :
    ∀ (l pre : List TideCandidate) (last : TideCandidate),
      filterLoop (pre ++ [last]) l = pre ++ sepKeepSpec last l := by
  intro l
  induction l with
  | nil => intro pre last; simp [filterLoop, sepKeepSpec]
  | cons c rest ih =>
    intro pre last
    simp only [filterLoop, sepKeepSpec, List.getLast?_concat]
    by_cases h1 : MIN_TIDE_SEPARATION_MS ≤ c.timeMs - last.timeMs
    · rw [if_pos h1, if_pos h1]
      rw [List.append_assoc pre [last] [c]]
      simpa using ih (pre ++ [last]) c
    · rw [if_neg h1, if_neg h1]
      by_cases h2 : last.prominence < c.prominence
      · rw [if_pos h2, if_pos h2, List.dropLast_concat]
        exact ih pre c
      · rw [if_neg h2, if_neg h2]
        exact ih pre last

theorem filterByTimeSeparation_eq_spec (candidates : List TideCandidate) :
    filterByTimeSeparation candidates = sepFilterSpec candidates := by
  cases candidates with
  | nil => rfl
  | cons c0 rest =>
    have h := filterLoop_eq_sepKeepSpec rest [] c0
    simpa [filterByTimeSeparation, sepFilterSpec] using h

theorem altLoop_eq_altKeep :
    ∀ (l pre : List TideCandidate) (last : TideCandidate),
      altLoop (pre ++ [last]) l = pre ++ altKeep last l := by
  intro l
  induction l with
  | nil => intro pre last; simp [altLoop, altKeep]
  | cons c rest ih =>
    intro pre last
    simp only [altLoop, altKeep, List.getLast?_concat]
    by_cases h1 : c.type ≠ last.type
    · rw [if_pos h1, if_pos h1]
      rw [List.append_assoc pre [last] [c]]
      simpa using ih (pre ++ [last]) c
    · rw [if_neg h1, if_neg h1]
      by_cases h2 : last.prominence < c.prominence
      · rw [if_pos h2, if_pos h2, List.dropLast_concat]
        exact ih pre c
      · rw [if_neg h2, if_neg h2]
        exact ih pre last

theorem enforceAlternation_cons (t0 : TideCandidate) (rest : List TideCandidate) :
    enforceAlternation (t0 :: rest) = altKeep t0 rest := by
  cases rest with
  | nil => simp [enforceAlternation, altKeep]
  | cons c rest' =>
    have h := altLoop_eq_altKeep (c :: rest') [] t0
    simpa [enforceAlternation] using h

/-! ## Structural properties of the emission-style loops -/

theorem sepKeepSpec_sublist :
    ∀ (l : List TideCandidate) (last : TideCandidate),
      (sepKeepSpec last l).Sublist (last :: l) := by
  intro l
  induction l with
  | nil => intro last; simp [sepKeepSpec]
  | cons c rest ih =>
    intro last
    simp only [sepKeepSpec]
    by_cases h1 : MIN_TIDE_SEPARATION_MS ≤ c.timeMs - last.timeMs
    · rw [if_pos h1]
      exact List.Sublist.cons₂ last (ih c)
    · rw [if_neg h1]
      by_cases h2 : last.prominence < c.prominence
      · rw [if_pos h2]
        exact List.Sublist.cons last (ih c)
      · rw [if_neg h2]
        exact (ih last).trans (List.Sublist.cons₂ last (List.sublist_cons_self c rest))

theorem altKeep_sublist :
    ∀ (l : List TideCandidate) (last : TideCandidate),
      (altKeep last l).Sublist (last :: l) := by
  intro l
  induction l with
  | nil => intro last; simp [altKeep]
  | cons c rest ih =>
    intro last
    simp only [altKeep]
    by_cases h1 : c.type ≠ last.type
    · rw [if_pos h1]
      exact List.Sublist.cons₂ last (ih c)
    · rw [if_neg h1]
      by_cases h2 : last.prominence < c.prominence
      · rw [if_pos h2]
        exact List.Sublist.cons last (ih c)
      · rw [if_neg h2]
        exact (ih last).trans (List.Sublist.cons₂ last (List.sublist_cons_self c rest))

theorem sepKeepSpec_head_mem :
    ∀ (l : List TideCandidate) (last y : TideCandidate),
      (sepKeepSpec last l).head? = some y → y = last ∨ y ∈ l := by
  intro l
  induction l with
  | nil =>
    intro last y h
    simp [sepKeepSpec] at h
    exact Or.inl h.symm
  | cons c rest ih =>
    intro last y h
    simp only [sepKeepSpec] at h
    by_cases h1 : MIN_TIDE_SEPARATION_MS ≤ c.timeMs - last.timeMs
    · rw [if_pos h1] at h
      simp at h
      exact Or.inl h.symm
    · rw [if_neg h1] at h
      by_cases h2 : last.prominence < c.prominence
      · rw [if_pos h2] at h
        rcases ih c y h with h' | h'
        · exact Or.inr (by simp [h'])
        · exact Or.inr (by simp [h'])
      · rw [if_neg h2] at h
        rcases ih last y h with h' | h'
        · exact Or.inl h'
        · exact Or.inr (by simp [h'])

theorem altKeep_head_type :
    ∀ (l : List TideCandidate) (last y : TideCandidate),
      (altKeep last l).head? = some y → y.type = last.type := by
  intro l
  induction l with
  | nil =>
    intro last y h
    simp [altKeep] at h
    rw [← h]
  | cons c rest ih =>
    intro last y h
    simp only [altKeep] at h
    by_cases h1 : c.type ≠ last.type
    · rw [if_pos h1] at h
      simp at h
      rw [← h]
    · rw [if_neg h1] at h
      push_neg at h1
      by_cases h2 : last.prominence < c.prominence
      · rw [if_pos h2] at h
        rw [ih c y h, h1]
      · rw [if_neg h2] at h
        exact ih last y h

theorem altKeep_chain_ne :
    ∀ (l : List TideCandidate) (last : TideCandidate),
      List.Chain' (fun a b => a.type ≠ b.type) (altKeep last l) := by
  intro l
  induction l with
  | nil => intro last; simp [altKeep]
  | cons c rest ih =>
    intro last
    simp only [altKeep]
    by_cases h1 : c.type ≠ last.type
    · rw [if_pos h1]
      refine List.chain'_cons'.mpr ⟨?_, ih c⟩
      intro y hy
      have := altKeep_head_type rest c y hy
      rw [this]
      exact fun hcon => h1 hcon.symm
    · rw [if_neg h1]
      by_cases h2 : last.prominence < c.prominence
      · rw [if_pos h2]
        exact ih c
      · rw [if_neg h2]
        exact ih last

theorem sepKeepSpec_chain_sep :
    ∀ (l : List TideCandidate) (last : TideCandidate),
      List.Pairwise (fun a b => a.timeMs < b.timeMs) (last :: l) →
      List.Chain' (fun a b => a.timeMs + MIN_TIDE_SEPARATION_MS ≤ b.timeMs)
        (sepKeepSpec last l) := by
  intro l
  induction l with
  | nil => intro last _; simp [sepKeepSpec]
  | cons c rest ih =>
    intro last hpw
    have hcr : List.Pairwise (fun a b => a.timeMs < b.timeMs) (c :: rest) :=
      hpw.of_cons
    have hlr : List.Pairwise (fun a b => a.timeMs < b.timeMs) (last :: rest) :=
      List.Pairwise.sublist
        (List.Sublist.cons₂ last (List.sublist_cons_self c rest)) hpw
    simp only [sepKeepSpec]
    by_cases h1 : MIN_TIDE_SEPARATION_MS ≤ c.timeMs - last.timeMs
    · rw [if_pos h1]
      refine List.chain'_cons'.mpr ⟨?_, ih c hcr⟩
      intro y hy
      rcases sepKeepSpec_head_mem rest c y hy with rfl | hmem
      · linarith
      · have hlt : c.timeMs < y.timeMs := List.rel_of_pairwise_cons hcr hmem
        linarith
    · rw [if_neg h1]
      by_cases h2 : last.prominence < c.prominence
      · rw [if_pos h2]
        exact ih c hcr
      · rw [if_neg h2]
        exact ih last hlr

theorem chain'_sep_pairwise {l : List TideCandidate}
    (h : List.Chain' (fun a b => a.timeMs + MIN_TIDE_SEPARATION_MS ≤ b.timeMs) l) :
    List.Pairwise (fun a b => a.timeMs + MIN_TIDE_SEPARATION_MS ≤ b.timeMs) l := by
  haveI : IsTrans TideCandidate
      (fun a b => a.timeMs + MIN_TIDE_SEPARATION_MS ≤ b.timeMs) := by
    constructor
    intro a b c hab hbc
    have hnn : (0 : ℚ) ≤ MIN_TIDE_SEPARATION_MS := by
      norm_num [MIN_TIDE_SEPARATION_MS]
    simp only at hab hbc ⊢
    linarith
  exact List.chain'_iff_pairwise.mp h

/-! ## The quadratic interpolation offset is strictly within half a sample -/

theorem interp_offset_abs_lt_half (y1 y2 y3 : ℚ)
    (h : (y1 < y2 ∧ y3 < y2) ∨ (y2 < y1 ∧ y2 < y3)) :
    |(if 2 * (y1 - 2 * y2 + y3) ≠ 0
        then (y1 - y3) / (2 * (y1 - 2 * y2 + y3)) else 0)| < 1 / 2 := by
  rcases h with ⟨ha, hb⟩ | ⟨ha, hb⟩
  · have hneg : 2 * (y1 - 2 * y2 + y3) < 0 := by linarith
    rw [if_pos (ne_of_lt hneg), abs_div, abs_of_neg hneg,
      div_lt_iff₀ (by linarith)]
    rcases abs_cases (y1 - y3) with ⟨he, _⟩ | ⟨he, _⟩ <;> rw [he] <;> linarith
  · have hpos : 0 < 2 * (y1 - 2 * y2 + y3) := by linarith
    rw [if_pos (ne_of_gt hpos), abs_div, abs_of_pos hpos,
      div_lt_iff₀ (by linarith)]
    rcases abs_cases (y1 - y3) with ⟨he, _⟩ | ⟨he, _⟩ <;> rw [he] <;> linarith

/-- Inversion principle for `candAt`: a produced candidate comes from a fully
defined triple classified as an extremum, and its fields are exactly the
interpolation formulas of the source. -/
theorem candAt_some_elim {seaLevels : List (Option ℚ)} {times : List ℚ}
    {i : ℕ} {c : TideCandidate} (h : candAt seaLevels times i = some c) :
    ∃ y1 y2 y3 ti, i ≠ 0 ∧
      seaLevels[i-1]? = some (some y1) ∧ seaLevels[i]? = some (some y2) ∧
      seaLevels[i+1]? = some (some y3) ∧ times[i]? = some ti ∧
      ((y1 < y2 ∧ y3 < y2) ∨ (y2 < y1 ∧ y2 < y3)) ∧
      c = { type := if y1 < y2 ∧ y3 < y2 then TideKind.HIGH else TideKind.LOW
            timeMs := ti + (if 2 * (y1 - 2 * y2 + y3) ≠ 0
              then (y1 - y3) / (2 * (y1 - 2 * y2 + y3)) else 0) * (60 * 60 * 1000)
            height := y2 - 0.25 * (y1 - y3) * (if 2 * (y1 - 2 * y2 + y3) ≠ 0
              then (y1 - y3) / (2 * (y1 - 2 * y2 + y3)) else 0)
            prominence := |y2 - (y1 + y3) / 2|
            index := i } := by
  by_cases hi : i = 0
  · simp [candAt, hi] at h
  · rw [candAt, if_neg hi] at h
    split at h
    · rename_i y1 y2 y3 ti e1 e2 e3 e4
      split at h
      · rename_i hext
        exact ⟨y1, y2, y3, ti, hi, e1, e2, e3, e4, hext, (Option.some.inj h).symm⟩
      · exact absurd h (by simp)
    · exact absurd h (by simp)

/-- Under the hourly input contract, a candidate produced at centre index
`i` is interpolated strictly within half an hour of sample `i`. -/
theorem candAt_timeMs_window {seaLevels : List (Option ℚ)} {times : List ℚ}
    {t0 : ℚ} {i : ℕ} {c : TideCandidate}
    (hth : ∀ k, k < times.length → times[k]? = some (t0 + (k : ℚ) * 3600000))
    (h : candAt seaLevels times i = some c) :
    t0 + (i : ℚ) * 3600000 - 1800000 < c.timeMs ∧
      c.timeMs < t0 + (i : ℚ) * 3600000 + 1800000 := by
  obtain ⟨y1, y2, y3, ti, hi, e1, e2, e3, e4, hext, hc⟩ := candAt_some_elim h
  have hilen : i < times.length := by
    by_contra hcon
    push_neg at hcon
    rw [List.getElem?_eq_none hcon] at e4
    exact Option.noConfusion e4
  have hti : ti = t0 + (i : ℚ) * 3600000 := by
    have h' := hth i hilen
    rw [e4] at h'
    exact Option.some.inj h'
  have hoff := interp_offset_abs_lt_half y1 y2 y3 hext
  rcases abs_lt.mp hoff with ⟨hlo, hhi⟩
  subst hc
  simp only [hti]
  constructor <;> nlinarith

/-- Under the hourly input contract, the raw candidate list has strictly
increasing interpolated times. -/
theorem findCandidates_pairwise_lt (seaLevels : List (Option ℚ))
    {times : List ℚ} {t0 : ℚ}
    (hth : ∀ k, k < times.length → times[k]? = some (t0 + (k : ℚ) * 3600000)) :
    List.Pairwise (fun a b => a.timeMs < b.timeMs)
      (findCandidates seaLevels times) := by
  unfold findCandidates
  rw [List.pairwise_filterMap]
  refine List.Pairwise.imp ?_ (List.pairwise_lt_range seaLevels.length)
  intro a b hab x hx y hy
  rw [Option.mem_def] at hx hy
  have hwx := candAt_timeMs_window hth hx
  have hwy := candAt_timeMs_window hth hy
  have hcast : (a : ℚ) + 1 ≤ (b : ℚ) := by exact_mod_cast Nat.succ_le_of_lt hab
  nlinarith

/-! ## Claim theorems -/

/-- C1: for every input series, the tide sequence returned by
`getPreciseTides` strictly alternates kind — no two adjacent events in the
returned list share the same HIGH/LOW type. -/
theorem c1_alternation_invariant (hourlyData : HourlyData) :
    List.Chain' (fun a b => a.type ≠ b.type) (getPreciseTides hourlyData) := by
  have hgp : getPreciseTides hourlyData =
      enforceAlternation (filterByTimeSeparation
        (findCandidates hourlyData.sea_level_height_msl hourlyData.time)) := rfl
  rw [hgp]
  cases hfil : filterByTimeSeparation
      (findCandidates hourlyData.sea_level_height_msl hourlyData.time) with
  | nil => simp [enforceAlternation]
  | cons t rest =>
    rw [enforceAlternation_cons]
    exact altKeep_chain_ne rest t

/-- C5: the separation filter, applied to any candidate list in time order,
behaves exactly as described: it seeds its output with the first candidate,
appends each subsequent candidate at least the minimum separation after the
last kept one, and on conflict replaces the last kept candidate exactly
when the newcomer is strictly more prominent, otherwise discards it
(`sepFilterSpec` is that description verbatim). -/
theorem c5_separation_filter_spec (candidates : List TideCandidate) :
    filterByTimeSeparation candidates = sepFilterSpec candidates :=
  filterByTimeSeparation_eq_spec candidates

/-- C2: under the hourly input contract, adjacent events in the sequence
returned by `getPreciseTides` differ in time by at least the configured
minimum separation of 4.5 hours; neither the prominence-based replacement
in the separation filter nor the drop/replace steps of the alternation
enforcer reintroduce a sub-minimum gap. -/
theorem c2_separation_invariant (hourlyData : HourlyData) (t0 : ℚ)
    (hth : ∀ k, k < hourlyData.time.length →
      hourlyData.time[k]? = some (t0 + (k : ℚ) * 3600000)) :
    List.Chain' (fun a b => a.timeMs + MIN_TIDE_SEPARATION_MS ≤ b.timeMs)
      (getPreciseTides hourlyData) := by
  have hgp : getPreciseTides hourlyData =
      enforceAlternation (filterByTimeSeparation
        (findCandidates hourlyData.sea_level_height_msl hourlyData.time)) := rfl
  rw [hgp]
  have hpw := findCandidates_pairwise_lt hourlyData.sea_level_height_msl hth
  cases hcs : findCandidates hourlyData.sea_level_height_msl hourlyData.time with
  | nil => simp [filterByTimeSeparation, enforceAlternation]
  | cons c0 cs =>
    rw [hcs] at hpw
    have hfil : filterByTimeSeparation (c0 :: cs) = sepKeepSpec c0 cs := by
      have h := filterLoop_eq_sepKeepSpec cs [] c0
      simpa [filterByTimeSeparation] using h
    rw [hfil]
    have hch := sepKeepSpec_chain_sep cs c0 hpw
    have hps := chain'_sep_pairwise hch
    cases hks : sepKeepSpec c0 cs with
    | nil => simp [enforceAlternation]
    | cons d ds =>
      rw [enforceAlternation_cons]
      rw [hks] at hps
      exact (List.Pairwise.sublist (altKeep_sublist ds d) hps).chain'

/-- C6: under the hourly input contract, the event times in the sequence
returned by `getPreciseTides` are strictly increasing — the interpolation
offset never reorders refined times relative to candidate index order, and
the filter passes preserve order. -/
theorem c6_monotonic_times (hourlyData : HourlyData) (t0 : ℚ)
    (hth : ∀ k, k < hourlyData.time.length →
      hourlyData.time[k]? = some (t0 + (k : ℚ) * 3600000)) :
    List.Pairwise (fun a b => a.timeMs < b.timeMs)
      (getPreciseTides hourlyData) := by
  have hgp : getPreciseTides hourlyData =
      enforceAlternation (filterByTimeSeparation
        (findCandidates hourlyData.sea_level_height_msl hourlyData.time)) := rfl
  rw [hgp]
  have hpw := findCandidates_pairwise_lt hourlyData.sea_level_height_msl hth
  cases hcs : findCandidates hourlyData.sea_level_height_msl hourlyData.time with
  | nil => simp [filterByTimeSeparation, enforceAlternation]
  | cons c0 cs =>
    rw [hcs] at hpw
    have hfil : filterByTimeSeparation (c0 :: cs) = sepKeepSpec c0 cs := by
      have h := filterLoop_eq_sepKeepSpec cs [] c0
      simpa [filterByTimeSeparation] using h
    rw [hfil]
    have hpw' : List.Pairwise (fun a b => a.timeMs < b.timeMs) (sepKeepSpec c0 cs) :=
      List.Pairwise.sublist (sepKeepSpec_sublist cs c0) hpw
    cases hks : sepKeepSpec c0 cs with
    | nil => simp [enforceAlternation]
    | cons d ds =>
      rw [enforceAlternation_cons]
      rw [hks] at hpw'
      exact List.Pairwise.sublist (altKeep_sublist ds d) hpw'

/-- Witness for C2: the hourly hypothesis discharged on a concrete
three-sample series. -/
theorem c2_separation_invariant_witness :
    List.Chain' (fun a b => a.timeMs + MIN_TIDE_SEPARATION_MS ≤ b.timeMs)
      (getPreciseTides
        { sea_level_height_msl := [some 0, some 1, some 0]
          time := [0, 3600000, 7200000] }) :=
  c2_separation_invariant
    { sea_level_height_msl := [some 0, some 1, some 0]
      time := [0, 3600000, 7200000] } 0
    (by intro k hk
        have hk' : k < 3 := hk
        interval_cases k <;> norm_num)

/-- Witness for C6: the hourly hypothesis discharged on a concrete
five-sample series with two extrema. -/
theorem c6_monotonic_times_witness :
    List.Pairwise (fun a b => a.timeMs < b.timeMs)
      (getPreciseTides
        { sea_level_height_msl := [some 0, some 1, some 0, some (-1), some 0]
          time := [0, 3600000, 7200000, 10800000, 14400000] }) :=
  c6_monotonic_times
    { sea_level_height_msl := [some 0, some 1, some 0, some (-1), some 0]
      time := [0, 3600000, 7200000, 10800000, 14400000] } 0
    (by intro k hk
        have hk' : k < 5 := hk
        interval_cases k <;> norm_num)

/-- C3 counterexample: on heights `[-1, 0]` with hourly timestamps and
reference instant `0`, the current index is `0`, which is not the last
sample, and the height at index `1` (namely `0`) is strictly greater than
the height at index `0` (namely `-1`), yet the code reports falling: the JS
`||` fallback treats the value `0` like a missing sample. -/
theorem c3_trend_cex :
    findCurrentIndex [0, 3600000] 0 = 0 ∧
    ([some (-1 : ℚ), some 0] : List (Option ℚ)).length = 2 ∧
    ([some (-1 : ℚ), some 0] : List (Option ℚ))[0 + 1]? = some (some 0) ∧
    ((-1 : ℚ) < 0) ∧
    trendRising [some (-1), some 0] (findCurrentIndex [0, 3600000] 0) = false := by
  have hidx : findCurrentIndex [0, 3600000] 0 = 0 := by
    norm_num [findCurrentIndex, findCurrentIndexLoop]
  refine ⟨hidx, by norm_num, by norm_num, by norm_num, ?_⟩
  rw [hidx]
  norm_num [trendRising, jsToNum]

/-- C3 (amended): the trend is reported rising iff the sample at
`current_index + 1` exists, is non-`null` and nonzero, and strictly exceeds
the current height (a `null` current height comparing as `0`); in every
other case — including the last sample, a `null` next sample, and a next
sample equal to `0` — the trend is reported falling. -/
theorem c3_trend_amended (seaLevels : List (Option ℚ)) (times : List ℚ)
    (now : ℚ) (_hne : times ≠ [])
    (_hlen : times.length = seaLevels.length) :
    trendRising seaLevels (findCurrentIndex times now) = true ↔
      ∃ v, (seaLevels[findCurrentIndex times now + 1]?).join = some v ∧
        v ≠ 0 ∧ jsToNum ((seaLevels[findCurrentIndex times now]?).join) < v := by
  set i := findCurrentIndex times now with hi
  simp only [trendRising, decide_eq_true_eq]
  by_cases h0 : (seaLevels[i + 1]?).join = none ∨ (seaLevels[i + 1]?).join = some 0
  · rw [if_pos h0]
    constructor
    · intro h
      exact absurd h (lt_irrefl _)
    · rintro ⟨v, hv, hv0, _⟩
      rcases h0 with h0 | h0
      · rw [h0] at hv
        exact Option.noConfusion hv
      · rw [h0] at hv
        exact absurd (Option.some.inj hv).symm hv0
  · rw [if_neg h0]
    push_neg at h0
    obtain ⟨hnn, hn0⟩ := h0
    obtain ⟨v, hv⟩ := Option.ne_none_iff_exists'.mp hnn
    rw [hv]
    constructor
    · intro h
      refine ⟨v, rfl, ?_, h⟩
      intro hv0
      exact hn0 (by rw [hv, hv0])
    · rintro ⟨v', hv', _, hlt⟩
      rw [Option.some.inj hv']
      exact hlt

/-- Witness for C3 (amended): heights `[1, 2]`, hourly timestamps,
reference instant `0`; the trend is rising and the characterisation holds. -/
theorem c3_trend_amended_witness :
    trendRising [some 1, some 2] (findCurrentIndex [0, 3600000] 0) = true ↔
      ∃ v, (([some (1 : ℚ), some 2] :
          List (Option ℚ))[findCurrentIndex [0, 3600000] 0 + 1]?).join = some v ∧
        v ≠ 0 ∧ jsToNum ((([some (1 : ℚ), some 2] :
          List (Option ℚ))[findCurrentIndex [0, 3600000] 0]?).join) < v :=
  c3_trend_amended [some 1, some 2] [0, 3600000] 0 (by simp) (by simp)

/-- C4: every candidate produced by the scan carries the interpolation
formulas of the source — `divisor = 2*(y1 - 2*y2 + y3)`,
`offset = (y1 - y3)/divisor` when the divisor is nonzero and `0` otherwise,
refined time `time[i] + offset` hours, refined height
`y2 - 0.25*(y1 - y3)*offset` — and in particular the triple
`(1.0, 1.5, 1.0)` yields offset `0` and refined height `1.5`. -/
theorem c4_interpolation :
    (∀ (seaLevels : List (Option ℚ)) (times : List ℚ) (i : ℕ)
        (c : TideCandidate), candAt seaLevels times i = some c →
      ∃ y1 y2 y3 ti,
        seaLevels[i-1]? = some (some y1) ∧ seaLevels[i]? = some (some y2) ∧
        seaLevels[i+1]? = some (some y3) ∧ times[i]? = some ti ∧
        c.timeMs = ti + (if 2 * (y1 - 2 * y2 + y3) ≠ 0
            then (y1 - y3) / (2 * (y1 - 2 * y2 + y3)) else 0) * (60 * 60 * 1000) ∧
        c.height = y2 - 0.25 * (y1 - y3) * (if 2 * (y1 - 2 * y2 + y3) ≠ 0
            then (y1 - y3) / (2 * (y1 - 2 * y2 + y3)) else 0)) ∧
    candAt [some 1, some (3/2), some 1] [0, 3600000, 7200000] 1 =
      some { type := TideKind.HIGH, timeMs := 3600000, height := 3/2,
             prominence := 1/2, index := 1 } := by
  constructor
  · intro seaLevels times i c hc
    obtain ⟨y1, y2, y3, ti, _, e1, e2, e3, e4, _, hcrec⟩ := candAt_some_elim hc
    subst hcrec
    exact ⟨y1, y2, y3, ti, e1, e2, e3, e4, rfl, rfl⟩
  · norm_num [candAt]

/-- Witness for C4: the formula characterisation instantiated on the
`(1.0, 1.5, 1.0)` triple, where the refined time is exactly the raw sample
time (offset `0`) and the refined height is `1.5`. -/
theorem c4_interpolation_witness :
    ∃ y1 y2 y3 ti,
      ([some 1, some (3/2), some 1] : List (Option ℚ))[0]? = some (some y1) ∧
      ([some 1, some (3/2), some 1] : List (Option ℚ))[1]? = some (some y2) ∧
      ([some 1, some (3/2), some 1] : List (Option ℚ))[2]? = some (some y3) ∧
      ([0, 3600000, 7200000] : List ℚ)[1]? = some ti ∧
      (3600000 : ℚ) = ti + (if 2 * (y1 - 2 * y2 + y3) ≠ 0
          then (y1 - y3) / (2 * (y1 - 2 * y2 + y3)) else 0) * (60 * 60 * 1000) ∧
      (3/2 : ℚ) = y2 - 0.25 * (y1 - y3) * (if 2 * (y1 - 2 * y2 + y3) ≠ 0
          then (y1 - y3) / (2 * (y1 - 2 * y2 + y3)) else 0) :=
  c4_interpolation.1 [some 1, some (3/2), some 1] [0, 3600000, 7200000] 1
    { type := TideKind.HIGH, timeMs := 3600000, height := 3/2,
      prominence := 1/2, index := 1 }
    c4_interpolation.2

/-- A successful `find?` returns the first satisfying element: everything
before it in the list fails the predicate. -/
theorem find?_eq_some_split {α : Type} (p : α → Bool) :
    ∀ (l : List α) (e : α), l.find? p = some e →
      p e = true ∧ ∃ l1 l2, l = l1 ++ e :: l2 ∧ ∀ x ∈ l1, p x = false := by
  intro l
  induction l with
  | nil => intro e h; simp at h
  | cons a rest ih =>
    intro e h
    by_cases hpa : p a = true
    · rw [List.find?_cons_of_pos rest hpa] at h
      have he : a = e := Option.some.inj h
      subst he
      exact ⟨hpa, [], rest, rfl, by simp⟩
    · rw [List.find?_cons_of_neg rest hpa] at h
      obtain ⟨hpe, l1, l2, hsplit, hall⟩ := ih e h
      refine ⟨hpe, a :: l1, l2, by rw [hsplit]; rfl, ?_⟩
      intro x hx
      rcases List.mem_cons.mp hx with rfl | hx'
      · exact Bool.not_eq_true _ ▸ eq_false_of_ne_true hpa
      · exact hall x hx'

/-- The last element of a `filter` is the last satisfying element:
everything after it in the list fails the predicate. -/
theorem filter_getLast?_split {α : Type} (p : α → Bool) :
    ∀ (l : List α) (e : α), (l.filter p).getLast? = some e →
      p e = true ∧ ∃ l1 l2, l = l1 ++ e :: l2 ∧ ∀ x ∈ l2, p x = false := by
  intro l
  induction l using List.reverseRecOn with
  | nil => intro e h; simp at h
  | append_singleton l' a ih =>
    intro e h
    rw [List.filter_append] at h
    by_cases hpa : p a = true
    · rw [List.filter_cons, if_pos hpa, List.filter_nil, List.getLast?_concat] at h
      have he : e = a := (Option.some.inj h).symm
      subst he
      exact ⟨hpa, l', [], rfl, by simp⟩
    · rw [List.filter_cons, if_neg hpa, List.filter_nil, List.append_nil] at h
      obtain ⟨hpe, l1, l2, hsplit, hall⟩ := ih e h
      refine ⟨hpe, l1, l2 ++ [a], by rw [hsplit]; simp, ?_⟩
      intro x hx
      rcases List.mem_append.mp hx with hx' | hx'
      · exact hall x hx'
      · rw [List.mem_singleton.mp hx']
        exact eq_false_of_ne_true hpa

/-- C7: for every tide sequence and reference instant, next high
(respectively next low) is the first event of that kind with time strictly
greater than `now`, absent exactly when no such event exists; and last tide
is the last event with time at most `now`, absent exactly when the sequence
has no past events. -/
theorem c7_query_layer (tides : List TideCandidate) (now : ℚ) :
    (∀ e, nextHighTide tides now = some e →
      e.type = TideKind.HIGH ∧ now < e.timeMs ∧
      ∃ l1 l2, tides = l1 ++ e :: l2 ∧
        ∀ x ∈ l1, ¬(x.type = TideKind.HIGH ∧ now < x.timeMs)) ∧
    (nextHighTide tides now = none →
      ∀ x ∈ tides, ¬(x.type = TideKind.HIGH ∧ now < x.timeMs)) ∧
    (∀ e, nextLowTide tides now = some e →
      e.type = TideKind.LOW ∧ now < e.timeMs ∧
      ∃ l1 l2, tides = l1 ++ e :: l2 ∧
        ∀ x ∈ l1, ¬(x.type = TideKind.LOW ∧ now < x.timeMs)) ∧
    (nextLowTide tides now = none →
      ∀ x ∈ tides, ¬(x.type = TideKind.LOW ∧ now < x.timeMs)) ∧
    (∀ e, lastTideOf tides now = some e →
      e.timeMs ≤ now ∧
      ∃ l1 l2, tides = l1 ++ e :: l2 ∧ ∀ x ∈ l2, ¬(x.timeMs ≤ now)) ∧
    (lastTideOf tides now = none → ∀ x ∈ tides, ¬(x.timeMs ≤ now)) := by
  refine ⟨?_, ?_, ?_, ?_, ?_, ?_⟩
  · intro e h
    obtain ⟨hpe, l1, l2, hsplit, hall⟩ := find?_eq_some_split _ tides e h
    rw [decide_eq_true_eq] at hpe
    refine ⟨hpe.1, hpe.2, l1, l2, hsplit, ?_⟩
    intro x hx
    have := hall x hx
    simpa using this
  · intro h x hx
    have := List.find?_eq_none.mp h x hx
    simpa using this
  · intro e h
    obtain ⟨hpe, l1, l2, hsplit, hall⟩ := find?_eq_some_split _ tides e h
    rw [decide_eq_true_eq] at hpe
    refine ⟨hpe.1, hpe.2, l1, l2, hsplit, ?_⟩
    intro x hx
    have := hall x hx
    simpa using this
  · intro h x hx
    have := List.find?_eq_none.mp h x hx
    simpa using this
  · intro e h
    obtain ⟨hpe, l1, l2, hsplit, hall⟩ := filter_getLast?_split _ tides e h
    rw [decide_eq_true_eq] at hpe
    refine ⟨hpe, l1, l2, hsplit, ?_⟩
    intro x hx
    have := hall x hx
    simpa using this
  · intro h x hx
    have hnil : pastTides tides now = [] := List.getLast?_eq_none_iff.mp h
    have := List.filter_eq_nil_iff.mp hnil x hx
    simpa using this

/-- Witness for C7: a concrete two-event sequence at reference instant 50,
where next high is absent, next low is the second event, and last tide is
the first event. -/
theorem c7_query_layer_witness :
    (∀ x ∈ [{ type := TideKind.HIGH, timeMs := 0, height := 1,
              prominence := 1, index := 1 },
            { type := TideKind.LOW, timeMs := 100, height := 0,
              prominence := 1, index := 7 }],
      ¬(TideCandidate.type x = TideKind.HIGH ∧ (50:ℚ) < x.timeMs)) ∧
    (TideCandidate.type
        { type := TideKind.LOW, timeMs := 100, height := 0,
          prominence := 1, index := 7 } = TideKind.LOW ∧
      (50:ℚ) < 100 ∧
      ∃ l1 l2,
        [{ type := TideKind.HIGH, timeMs := 0, height := 1,
           prominence := 1, index := 1 },
         { type := TideKind.LOW, timeMs := (100:ℚ), height := 0,
           prominence := 1, index := 7 }] =
          l1 ++ { type := TideKind.LOW, timeMs := (100:ℚ), height := 0,
                  prominence := 1, index := 7 } :: l2 ∧
        ∀ x ∈ l1, ¬(TideCandidate.type x = TideKind.LOW ∧ (50:ℚ) < x.timeMs)) := by
  constructor
  · exact (c7_query_layer _ 50).2.1 (by norm_num [nextHighTide, List.find?]; rfl)
  · exact (c7_query_layer _ 50).2.2.1 _ (by norm_num [nextLowTide, List.find?])

/-- With fewer than 3 samples no centre index has a full triple, so the
scan emits nothing. -/
theorem candAt_none_of_short {seaLevels : List (Option ℚ)} {times : List ℚ}
    {i : ℕ} (h : seaLevels.length < 3) : candAt seaLevels times i = none := by
  cases hc : candAt seaLevels times i with
  | none => rfl
  | some c =>
    exfalso
    obtain ⟨y1, y2, y3, ti, hi0, e1, e2, e3, e4, _, _⟩ := candAt_some_elim hc
    have h1 : i + 1 < seaLevels.length := by
      by_contra hcon
      push_neg at hcon
      rw [List.getElem?_eq_none hcon] at e3
      exact Option.noConfusion e3
    omega

theorem findCandidates_nil_of_short {seaLevels : List (Option ℚ)}
    {times : List ℚ} (h : seaLevels.length < 3) :
    findCandidates seaLevels times = [] := by
  unfold findCandidates
  rw [List.filterMap_eq_nil_iff]
  intro i _
  exact candAt_none_of_short h

/-- C8: for every input series with fewer than 3 samples, or in which the
scan finds no interior extremum, the engine returns an empty tide sequence
and all derived query results are absent; the computation is total, so no
error is raised. -/
theorem c8_insufficient_data (hourlyData : HourlyData) (now : ℚ)
    (h : hourlyData.sea_level_height_msl.length < 3 ∨
      findCandidates hourlyData.sea_level_height_msl hourlyData.time = []) :
    getPreciseTides hourlyData = [] ∧
    nextHighTide (getPreciseTides hourlyData) now = none ∧
    nextLowTide (getPreciseTides hourlyData) now = none ∧
    lastTideOf (getPreciseTides hourlyData) now = none := by
  have hcand : findCandidates hourlyData.sea_level_height_msl hourlyData.time = [] := by
    rcases h with h | h
    · exact findCandidates_nil_of_short h
    · exact h
  have hgp : getPreciseTides hourlyData =
      enforceAlternation (filterByTimeSeparation
        (findCandidates hourlyData.sea_level_height_msl hourlyData.time)) := rfl
  have hnil : getPreciseTides hourlyData = [] := by
    rw [hgp, hcand]
    rfl
  refine ⟨hnil, ?_, ?_, ?_⟩ <;> rw [hnil] <;> rfl

/-- Witness for C8: a two-sample series yields the empty sequence and
absent query results. -/
theorem c8_insufficient_data_witness :
    getPreciseTides { sea_level_height_msl := [some 1, some 2], time := [0, 3600000] } = [] ∧
    nextHighTide (getPreciseTides { sea_level_height_msl := [some 1, some 2], time := [0, 3600000] }) 0 = none ∧
    nextLowTide (getPreciseTides { sea_level_height_msl := [some 1, some 2], time := [0, 3600000] }) 0 = none ∧
    lastTideOf (getPreciseTides { sea_level_height_msl := [some 1, some 2], time := [0, 3600000] }) 0 = none :=
  c8_insufficient_data
    { sea_level_height_msl := [some 1, some 2], time := [0, 3600000] } 0
    (Or.inl (by norm_num))

/-- C9: setting one height to `null` suppresses exactly the candidates
whose 3-sample window contains that index (those centred at `j-1`, `j`, or
`j+1`) and leaves detection at every other centre index unchanged. -/
theorem c9_gap_tolerance (seaLevels : List (Option ℚ)) (times : List ℚ)
    (j i : ℕ) :
    candAt (seaLevels.set j none) times i =
      if i ≤ j + 1 ∧ j ≤ i + 1 then none else candAt seaLevels times i := by
  by_cases hw : i ≤ j + 1 ∧ j ≤ i + 1
  · rw [if_pos hw]
    cases hc : candAt (seaLevels.set j none) times i with
    | none => rfl
    | some c =>
      exfalso
      obtain ⟨y1, y2, y3, ti, hi0, e1, e2, e3, e4, _, _⟩ := candAt_some_elim hc
      have hread : ∀ y : ℚ, (seaLevels.set j none)[j]? ≠ some (some y) := by
        intro y
        rw [List.getElem?_set]
        by_cases hjl : j < seaLevels.length <;> simp [hjl]
      have hj : j = i - 1 ∨ j = i ∨ j = i + 1 := by omega
      rcases hj with hj | hj | hj
      · subst hj
        exact hread y1 e1
      · subst hj
        exact hread y2 e2
      · subst hj
        exact hread y3 e3
  · rw [if_neg hw]
    have hne1 : j ≠ i - 1 := by omega
    have hne2 : j ≠ i := by omega
    have hne3 : j ≠ i + 1 := by omega
    unfold candAt
    rw [List.getElem?_set_ne hne1, List.getElem?_set_ne hne2,
      List.getElem?_set_ne hne3]

/-- The popup scan step is the engine scan step with the bookkeeping
fields stripped. -/
theorem popupCandAt_eq_map (seaLevels : List (Option ℚ)) (times : List ℚ)
    (i : ℕ) :
    popupCandAt seaLevels times i =
      (candAt seaLevels times i).map TideCandidate.toPopupEvent := by
  by_cases hi : i = 0
  · simp [popupCandAt, candAt, hi]
  · rw [popupCandAt, candAt, if_neg hi, if_neg hi]
    rcases h1 : seaLevels[i-1]? with _ | (_ | y1) <;>
      rcases h2 : seaLevels[i]? with _ | (_ | y2) <;>
        rcases h3 : seaLevels[i+1]? with _ | (_ | y3) <;>
          rcases h4 : times[i]? with _ | ti <;>
            try rfl
    by_cases hext : (y1 < y2 ∧ y3 < y2) ∨ (y2 < y1 ∧ y2 < y3)
    · simp [hext, TideCandidate.toPopupEvent]
    · simp [hext]

/-- C10: the `getPreciseTides` variant in `src/popup.js` returns exactly
the ordered list of interpolated raw candidates, with no separation
filtering and no alternation enforcement; consequently on the series
`[0, 1, 0.5, 0.5, 1, 0]` (a plateau between two local maxima) its output
contains two adjacent HIGH events. -/
theorem c10_popup_variant :
    (∀ hourlyData : HourlyData,
      popupGetPreciseTides hourlyData =
        (findCandidates hourlyData.sea_level_height_msl hourlyData.time).map
          TideCandidate.toPopupEvent) ∧
    (popupGetPreciseTides
        { sea_level_height_msl :=
            [some 0, some 1, some (1/2), some (1/2), some 1, some 0]
          time := [0, 3600000, 7200000, 10800000, 14400000, 18000000] }).map
      PopupTideEvent.type = [TideKind.HIGH, TideKind.HIGH] := by
  constructor
  · intro hourlyData
    unfold popupGetPreciseTides findCandidates
    rw [List.map_filterMap]
    exact List.filterMap_congr
      (fun i _ => popupCandAt_eq_map hourlyData.sea_level_height_msl hourlyData.time i)
  · have h6 : List.range 6 = [0, 1, 2, 3, 4, 5] := by rfl
    show (List.filterMap _ (List.range 6)).map PopupTideEvent.type = _
    rw [h6]
    norm_num [popupCandAt, List.filterMap_cons]

end TideChecker
